/-
Verification of the graph-rewriting pipeline in
`torchdynamo/optimizations/normalize.py`: the Normalizer (with module
inlining), the Inplacifier, and the Functionalization pass.

Shallow embedding notes:
  * Nodes are identified by a natural-number `id`; Python node identity is
    this id.  A rewrite that creates a fresh node, redirects every use of
    the old node to it with `replace_all_uses_with`, and erases the old
    node is modelled as an in-place update of the node keeping its id:
    once the old node is erased the two are observationally
    indistinguishable, and no later lookup in the pass keys on the fresh
    object.  Genuinely coexisting new nodes (module inlining,
    Functionalization output) receive fresh ids from a counter.
  * Python exceptions (KeyError, IndexError, TypeError, AssertionError,
    AttributeError) are modelled with `Except Err`.
  * The external operator-signature database (`get_signature_for_torch_op`),
    the method tables and the process-wide counters are modelled at their
    interface: counters are per-run deltas returned by each pass.
  * `float("inf")` usage counts of non-call nodes are modelled by a set of
    "permanently live" buffers rather than by floating point.
-/
import Mathlib

/-- Literal (non-node) argument values appearing in the IR. -/
inductive Lit
  | bool : Bool → Lit
  | int : Int → Lit
  | str : String → Lit
  deriving DecidableEq, Repr

/-- An argument of a node: either a reference to an earlier node (a def-use
edge, by node id) or a literal value. -/
inductive Arg
  | node : Nat → Arg
  | lit : Lit → Arg
  deriving DecidableEq, Repr

/-- Function identities that can be the target of a `call_function` node.
Constructors cover the callables named in the source tables
(`NORMALIZE_METHODS`, `INPLACE_OPS`, the `_operator` cases of
`Functionalization.run_node`) plus `builtins.getattr` and `math.exp`. -/
inductive FnId
  | torch_relu | torch_relu_ | torch_exp | torch_add | torch_mul | torch_sum
  | torch_all | torch_chunk | torch_clamp | torch_clone | torch_flatten
  | torch_flip | torch_max | torch_mean | torch_narrow | torch_nonzero
  | torch_numel | torch_pow | torch_rsqrt | torch_sigmoid | torch_sort
  | torch_squeeze | torch_std | torch_transpose | torch_tril
  | torch_unsqueeze | torch_div | torch_bitwise_and | torch_bitwise_or
  | torch_tanh
  | F_log_softmax | F_softmax | F_mish | F_silu | F_hardsigmoid | F_rrelu
  | F_leaky_relu | F_celu | F_selu | F_elu | F_relu6 | F_hardswish
  | F_hardtanh | F_relu | F_threshold | F_sigmoid | F_tanh
  | op_iadd | op_imul | op_getitem | op_setitem | op_truediv
  | op_add | op_and_ | op_or_
  | builtins_getattr
  | math_exp
  deriving DecidableEq, Repr, Fintype

/-- Python `__module__` of a function identity. -/
def fnModule : FnId → String
  | .torch_relu | .torch_relu_ | .torch_exp | .torch_add | .torch_mul
  | .torch_sum | .torch_all | .torch_chunk | .torch_clamp | .torch_clone
  | .torch_flatten | .torch_flip | .torch_max | .torch_mean | .torch_narrow
  | .torch_nonzero | .torch_numel | .torch_pow | .torch_rsqrt
  | .torch_sigmoid | .torch_sort | .torch_squeeze | .torch_std
  | .torch_transpose | .torch_tril | .torch_unsqueeze | .torch_div
  | .torch_bitwise_and | .torch_bitwise_or | .torch_tanh => "torch"
  | .F_log_softmax | .F_softmax | .F_mish | .F_silu | .F_hardsigmoid
  | .F_rrelu | .F_leaky_relu | .F_celu | .F_selu | .F_elu | .F_relu6
  | .F_hardswish | .F_hardtanh | .F_relu | .F_threshold | .F_sigmoid
  | .F_tanh => "torch.nn.functional"
  | .op_iadd | .op_imul | .op_getitem | .op_setitem | .op_truediv
  | .op_add | .op_and_ | .op_or_ => "_operator"
  | .builtins_getattr => "builtins"
  | .math_exp => "math"

/-- Python `__name__` of a function identity. -/
def fnName : FnId → String
  | .torch_relu => "relu" | .torch_relu_ => "relu_" | .torch_exp => "exp"
  | .torch_add => "add" | .torch_mul => "mul" | .torch_sum => "sum"
  | .torch_all => "all" | .torch_chunk => "chunk" | .torch_clamp => "clamp"
  | .torch_clone => "clone" | .torch_flatten => "flatten"
  | .torch_flip => "flip" | .torch_max => "max" | .torch_mean => "mean"
  | .torch_narrow => "narrow" | .torch_nonzero => "nonzero"
  | .torch_numel => "numel" | .torch_pow => "pow" | .torch_rsqrt => "rsqrt"
  | .torch_sigmoid => "sigmoid" | .torch_sort => "sort"
  | .torch_squeeze => "squeeze" | .torch_std => "std"
  | .torch_transpose => "transpose" | .torch_tril => "tril"
  | .torch_unsqueeze => "unsqueeze" | .torch_div => "div"
  | .torch_bitwise_and => "bitwise_and" | .torch_bitwise_or => "bitwise_or"
  | .torch_tanh => "tanh"
  | .F_log_softmax => "log_softmax" | .F_softmax => "softmax"
  | .F_mish => "mish" | .F_silu => "silu" | .F_hardsigmoid => "hardsigmoid"
  | .F_rrelu => "rrelu" | .F_leaky_relu => "leaky_relu" | .F_celu => "celu"
  | .F_selu => "selu" | .F_elu => "elu" | .F_relu6 => "relu6"
  | .F_hardswish => "hardswish" | .F_hardtanh => "hardtanh"
  | .F_relu => "relu" | .F_threshold => "threshold"
  | .F_sigmoid => "sigmoid" | .F_tanh => "tanh"
  | .op_iadd => "iadd" | .op_imul => "imul" | .op_getitem => "getitem"
  | .op_setitem => "setitem" | .op_truediv => "truediv"
  | .op_add => "add" | .op_and_ => "and_" | .op_or_ => "or_"
  | .builtins_getattr => "getattr"
  | .math_exp => "exp"

/-- Attribute lookup `getattr(torch, name)` on the torch namespace, used by
`Functionalization.run_node` to purify `_operator` targets.  `none` models
an `AttributeError`. -/
def getattrTorch : String → Option FnId
  | "relu" => some .torch_relu | "relu_" => some .torch_relu_
  | "exp" => some .torch_exp | "add" => some .torch_add
  | "mul" => some .torch_mul | "sum" => some .torch_sum
  | "all" => some .torch_all | "chunk" => some .torch_chunk
  | "clamp" => some .torch_clamp | "clone" => some .torch_clone
  | "flatten" => some .torch_flatten | "flip" => some .torch_flip
  | "max" => some .torch_max | "mean" => some .torch_mean
  | "narrow" => some .torch_narrow | "nonzero" => some .torch_nonzero
  | "numel" => some .torch_numel | "pow" => some .torch_pow
  | "rsqrt" => some .torch_rsqrt | "sigmoid" => some .torch_sigmoid
  | "sort" => some .torch_sort | "squeeze" => some .torch_squeeze
  | "std" => some .torch_std | "transpose" => some .torch_transpose
  | "tril" => some .torch_tril | "unsqueeze" => some .torch_unsqueeze
  | "div" => some .torch_div | "bitwise_and" => some .torch_bitwise_and
  | "bitwise_or" => some .torch_bitwise_or | "tanh" => some .torch_tanh
  | _ => none

/-- Node operation kinds of the FX IR. -/
inductive Op
  | placeholder | get_attr | call_function | call_method | call_module
  | output
  deriving DecidableEq, Repr

/-- A node target: a function identity for `call_function`, or a string
(method name, attribute path, sub-module path, placeholder name). -/
inductive Target
  | fn : FnId → Target
  | str : String → Target
  deriving DecidableEq, Repr

/-- Node metadata (`node.meta`): result-type classification, the two
mutation flags, and optional dtype/device entries. -/
structure Meta where
  typeIsTensor : Bool := true
  is_mutation : Bool := false
  is_input_mutation : Bool := false
  dtype : Option Lit := none
  device : Option Lit := none
  deriving DecidableEq, Repr

abbrev Kw := List (String × Arg)

/-- A node of the IR. -/
structure Node where
  id : Nat
  op : Op
  target : Target
  args : List Arg
  kwargs : Kw
  meta : Meta := {}
  deriving DecidableEq, Repr

/-- Errors modelling Python exceptions. -/
inductive Err
  | typeError | keyError | indexError | attributeError | assertionError
  deriving DecidableEq, Repr

/-- Values stored in a module instance `__dict__` (only the identity of the
always-succeed stub matters to the spec). -/
inductive DVal
  | alwaysTrueStub
  | other : Nat → DVal
  deriving DecidableEq, Repr

/-- A sub-module as the passes see it: its class name, the graph produced
by `InliningTracer().trace(module)` (the tracer is external, so the traced
sub-graph is supplied as data), and its instance `__dict__`. -/
structure SubMod where
  className : String
  traced : List Node
  mdict : List (String × DVal) := []
  deriving DecidableEq, Repr

/-- A graph module: the graph, the table of sub-modules keyed by qualified
name, and a fresh-id counter for newly created nodes. -/
structure GM where
  graph : List Node
  modules : List (String × SubMod) := []
  fresh : Nat := 1000
  deriving DecidableEq, Repr

/- Association-list helpers (Python dict operations). -/

def kwFind : Kw → String → Option Arg
  | [], _ => none
  | (k, v) :: r, s => if k = s then some v else kwFind r s

def kwHas (l : Kw) (s : String) : Bool := (kwFind l s).isSome

def kwErase : Kw → String → Kw
  | [], _ => []
  | (k, v) :: r, s => if k = s then kwErase r s else (k, v) :: kwErase r s

def envLookup : List (Nat × Arg) → Nat → Option Arg
  | [], _ => none
  | (k, v) :: r, j => if k = j then some v else envLookup r j

/-- Replace the binding of `j` if present, else append it (Python dict
assignment). -/
def envSet : List (Nat × Arg) → Nat → Arg → List (Nat × Arg)
  | [], j, v => [(j, v)]
  | (k, w) :: r, j, v => if k = j then (j, v) :: r else (k, w) :: envSet r j v

def natLookup : List (Nat × Nat) → Nat → Option Nat
  | [], _ => none
  | (k, v) :: r, j => if k = j then some v else natLookup r j

def natSet : List (Nat × Nat) → Nat → Nat → List (Nat × Nat)
  | [], j, v => [(j, v)]
  | (k, w) :: r, j, v => if k = j then (j, v) :: r else (k, w) :: natSet r j v

def dictLookup : List (String × DVal) → String → Option DVal
  | [], _ => none
  | (k, v) :: r, s => if k = s then some v else dictLookup r s

def dictSet : List (String × DVal) → String → DVal → List (String × DVal)
  | [], s, v => [(s, v)]
  | (k, w) :: r, s, v => if k = s then (s, v) :: r else (k, w) :: dictSet r s v

def dictErase : List (String × DVal) → String → List (String × DVal)
  | [], _ => []
  | (k, v) :: r, s => if k = s then dictErase r s else (k, v) :: dictErase r s

def modLookup : List (String × SubMod) → String → Option SubMod
  | [], _ => none
  | (k, v) :: r, s => if k = s then some v else modLookup r s

def modSet : List (String × SubMod) → String → SubMod → List (String × SubMod)
  | [], s, v => [(s, v)]
  | (k, w) :: r, s, v => if k = s then (s, v) :: r else (k, w) :: modSet r s v

/- Configuration tables from the source. -/

/-- `VIEW_OPS`: operation names producing views that alias their first
argument's storage. -/
def VIEW_OPS : List String :=
  ["getitem", "as_strided", "detach", "diagonal", "expand", "expand_as",
   "movedim", "narrow", "permute", "select", "squeeze", "transpose", "t",
   "T", "real", "imag", "view_as_real", "view_as_imag", "unflatten",
   "unfold", "unsqueeze", "view", "view_as", "unbind", "split",
   "split_with_sizes", "swapaxes", "swapdims", "chunk", "indices", "values"]

/-- `MAYBE_VIEW_OPS`. -/
def MAYBE_VIEW_OPS : List String := ["contiguous", "reshape"]

/-- `NORMALIZE_METHODS`: method-name to function-identity table used by
`normalize` to convert `x.foo(...)` into `torch.foo(x, ...)`. -/
def NORMALIZE_METHODS : String → Option FnId
  | "add_" => some .op_iadd
  | "all" => some .torch_all
  | "chunk" => some .torch_chunk
  | "clamp" => some .torch_clamp
  | "clone" => some .torch_clone
  | "exp" => some .torch_exp
  | "flatten" => some .torch_flatten
  | "flip" => some .torch_flip
  | "log_softmax" => some .F_log_softmax
  | "max" => some .torch_max
  | "mean" => some .torch_mean
  | "mul_" => some .op_imul
  | "narrow" => some .torch_narrow
  | "nonzero" => some .torch_nonzero
  | "numel" => some .torch_numel
  | "pow" => some .torch_pow
  | "rsqrt" => some .torch_rsqrt
  | "sigmoid" => some .torch_sigmoid
  | "softmax" => some .F_softmax
  | "sort" => some .torch_sort
  | "squeeze" => some .torch_squeeze
  | "std" => some .torch_std
  | "sum" => some .torch_sum
  | "transpose" => some .torch_transpose
  | "tril" => some .torch_tril
  | "unsqueeze" => some .torch_unsqueeze
  | _ => none

/-- `DONT_EXPAND_MODULES`: module classes with internal control flow. -/
def DONT_EXPAND_MODULES : List String :=
  ["ConvTranspose2d", "EmbeddingBag", "LSTM"]

/-- `INPLACE_OPS`: `torch.nn.functional` entries with an `inplace=` flag. -/
def INPLACE_OPS : List FnId :=
  [.F_mish, .F_silu, .F_hardsigmoid, .F_rrelu, .F_leaky_relu, .F_celu,
   .F_selu, .F_elu, .F_relu6, .F_hardswish, .F_hardtanh, .F_relu,
   .F_threshold]

/-- `SKIP_INPLACE`: every callable of the `math`, `builtins` and `operator`
module dictionaries; membership is by module of the function identity. -/
def SKIP_INPLACE (f : FnId) : Bool :=
  fnModule f == "math" || fnModule f == "builtins" || fnModule f == "_operator"

/-- Modelled from the spec: the external signature database
(`get_signature_for_torch_op`) that reports whether a torch operation
accepts an `out: torch.Tensor` output-buffer parameter; the source only
consumes the repr of that answer.  `torch.nn.functional` callables and
non-torch callables have no torch-op signature. -/
def hasOutParamSig : FnId → Bool
  | .torch_exp | .torch_add | .torch_mul | .torch_sum | .torch_pow
  | .torch_clamp | .torch_div => true
  | _ => false

/- Metadata resolver: `short_name` / `long_name` diagnostic naming. -/

/-- The view test `Inplacifier.can_be_view`: `short_name(gm, node)` checked
for membership in `VIEW_OPS` or `MAYBE_VIEW_OPS`.  `short_name` reads
`target.__name__` for `call_function` (an `AttributeError` on a string
target), returns the target itself for `call_method` (a non-string target
is simply not a member of the string sets), and the sub-module class name
for `call_module`. -/
def canBeView (mods : List (String × SubMod)) (n : Node) : Except Err Bool :=
  match n.op with
  | .call_function =>
    match n.target with
    | .fn f => .ok (VIEW_OPS.contains (fnName f) || MAYBE_VIEW_OPS.contains (fnName f))
    | .str _ => .error .attributeError
  | .call_method =>
    match n.target with
    | .str s => .ok (VIEW_OPS.contains s || MAYBE_VIEW_OPS.contains s)
    | .fn _ => .ok false
  | .call_module =>
    match n.target with
    | .str p =>
      match modLookup mods p with
      | some md => .ok (VIEW_OPS.contains md.className || MAYBE_VIEW_OPS.contains md.className)
      | none => .error .attributeError
    | .fn _ => .error .attributeError
  | _ => .error .assertionError

/-- Diagnostic name `long_name(gm, node)` used as a counter key.  The
allowlist identity table consulted first is external; its miss branch
produces the module-qualified name, which is the behaviour modelled here.
For `placeholder` the underlying `short_name` hits `assert False`. -/
def longName (mods : List (String × SubMod)) (n : Node) : Except Err String :=
  match n.op with
  | .call_function =>
    match n.target with
    | .fn f => .ok (fnModule f ++ "." ++ fnName f)
    | .str _ => .error .attributeError
  | .call_method =>
    match n.target with
    | .str s => .ok s
    | .fn f => .ok (fnName f)
  | .call_module =>
    match n.target with
    | .str p =>
      match modLookup mods p with
      | some md => .ok md.className
      | none => .error .attributeError
    | .fn _ => .error .attributeError
  | .get_attr =>
    match n.target with
    | .str s => .ok s
    | .fn f => .ok (fnName f)
  | .output => .ok "output"
  | .placeholder => .error .assertionError

/- Inplacifier. -/

/-- Buffer-alias state of `Inplacifier.inplacify` phase A: `buf` maps each
node id to the id of the node whose `NodeCounts` cell it shares, and
`infs` lists the cells created with `usages = float("inf")` (non-call
nodes). -/
structure AliasSt where
  buf : List (Nat × Nat) := []
  infs : List Nat := []
  deriving DecidableEq, Repr

def isCallOp : Op → Bool
  | .call_function | .call_method | .call_module => true
  | _ => false

/-- One node of phase A of `Inplacifier.inplacify`: view nodes alias the
cell of their first argument (`counts[node] = counts[node.args[0]]`, a
KeyError when that argument is not a node already in `counts`), nodes
with an `out` keyword alias that keyword's cell, other call nodes own a
fresh cell, and non-call nodes own a fresh permanently-live cell. -/
def phaseAStep (mods : List (String × SubMod)) (st : AliasSt) (n : Node) :
    Except Err AliasSt :=
  if isCallOp n.op then
    match canBeView mods n with
    | .error e => .error e
    | .ok v =>
    if v then
      match n.args with
      | .node j :: _ =>
        match natLookup st.buf j with
        | some b => .ok { st with buf := natSet st.buf n.id b }
        | none => .error .keyError
      | .lit _ :: _ => .error .keyError
      | [] => .error .indexError
    else
      match kwFind n.kwargs "out" with
      | some (.node j) =>
        match natLookup st.buf j with
        | some b => .ok { st with buf := natSet st.buf n.id b }
        | none => .error .keyError
      | some (.lit _) => .error .keyError
      | none => .ok { st with buf := natSet st.buf n.id n.id }
  else
    .ok { buf := natSet st.buf n.id n.id, infs := n.id :: st.infs }

def phaseALoop (mods : List (String × SubMod)) :
    List Node → AliasSt → Except Err AliasSt
  | [], st => .ok st
  | n :: rest, st =>
    match phaseAStep mods st n with
    | .error e => .error e
    | .ok st' => phaseALoop mods rest st'

/-- Node ids referenced by a node's args and kwargs, in the order
`torch.fx.map_arg((node.args, node.kwargs), record_usage)` visits them. -/
def argNodeId : Arg → Option Nat
  | .node j => some j
  | .lit _ => none

def nodeRefs (n : Node) : List Nat :=
  n.args.filterMap argNodeId ++ (n.kwargs.map Prod.snd).filterMap argNodeId

/-- `record_usage` over a list of referenced node ids: each reference bumps
the usage count of the referenced node's buffer cell. -/
def bumpUsage (buf : List (Nat × Nat)) :
    List (Nat × Nat) → List Nat → Except Err (List (Nat × Nat))
  | u, [] => .ok u
  | u, j :: r =>
    match natLookup buf j with
    | some b => bumpUsage buf (natSet u b ((natLookup u b).getD 0 + 1)) r
    | none => .error .keyError

/-- One node of the reverse pass of `Inplacifier.inplacify`.  Returns the
(possibly rewritten) node, the increments of
`counters["optimizations"]["inplace"]` and `["out"]`, and whether control
reaches the final `record_usage` walk (the `continue` statements in the
source skip it).  The `next(kwargs.values())` expression of the source is
applied to a `dict_values` view, which is not an iterator, so the
keyword-only-argument case raises a TypeError. -/
def inpStep (A : AliasSt) (u : List (Nat × Nat)) (n : Node) :
    Except Err (Node × Nat × Nat × Bool) :=
  if n.op = Op.call_function ∧
      n.args.length + (kwErase n.kwargs "inplace").length = 1 then
    match n.args with
    | [] => .error .typeError
    | a :: _ =>
      match a with
      | .node j =>
        match natLookup A.buf j with
        | none => .error .keyError
        | some b =>
          if ¬ A.infs.contains b ∧ (natLookup u b).getD 0 = 0 then
            match n.target with
            | .fn f =>
              if SKIP_INPLACE f then .ok (n, 0, 0, false)
              else if INPLACE_OPS.contains f then
                .ok ({ n with kwargs := kwErase n.kwargs "inplace" ++
                  [("inplace", .lit (.bool true))] }, 1, 0, true)
              else if hasOutParamSig f then
                .ok ({ n with kwargs := kwErase n.kwargs "inplace" ++
                  [("out", .node j)] }, 0, 1, true)
              else .ok (n, 0, 0, false)
            | .str _ => .ok (n, 0, 0, false)
          else .ok (n, 0, 0, true)
      | .lit _ => .ok (n, 0, 0, true)
  else .ok (n, 0, 0, true)

/-- The reverse pass of `Inplacifier.inplacify` over the reversed node
list, rebuilding the graph in forward order and accumulating the two
optimization counters. -/
def inpLoop (A : AliasSt) :
    List Node → List (Nat × Nat) → List Node → Nat × Nat →
    Except Err (List Node × Nat × Nat)
  | [], _, acc, c => .ok (acc, c)
  | n :: rest, u, acc, c =>
    match inpStep A u n with
    | .error e => .error e
    | .ok (n', di, dout, walkArgs) =>
      match (if walkArgs then bumpUsage A.buf u (nodeRefs n) else .ok u) with
      | .error e => .error e
      | .ok u' => inpLoop A rest u' (n' :: acc) (c.1 + di, c.2 + dout)

/-- `Inplacifier(gm).inplacify()`: phase A computes buffer aliasing over
the nodes in forward order, phase B walks the nodes in reverse rewriting
safe single-argument calls into in-place or output-buffer form.  Returns
the rewritten node list and the `(inplace, out)` counter deltas. -/
def inplacify (gm : GM) : Except Err (List Node × Nat × Nat) :=
  match phaseALoop gm.modules gm.graph {} with
  | .error e => .error e
  | .ok A => inpLoop A gm.graph.reverse [] [] (0, 0)

/- Module inliner (`expand_module_call`) and Normalizer (`normalize`). -/

/-- The key patched on the sub-module instance before tracing. -/
def checkInputDimKey : String := "_check_input_dim"

/-- Substitution through the inliner's `vars` table (`vars.__getitem__` as
the `node_copy` argument transform): node references must be bound, a
missing binding is a KeyError; literals pass through untouched. -/
def varsResolve (vars : List (Nat × Arg)) : Arg → Except Err Arg
  | .node j =>
    match envLookup vars j with
    | some v => .ok v
    | none => .error .keyError
  | .lit l => .ok (.lit l)

def varsResolveList (vars : List (Nat × Arg)) :
    List Arg → Except Err (List Arg)
  | [] => .ok []
  | a :: r =>
    match varsResolve vars a with
    | .error e => .error e
    | .ok a' =>
      match varsResolveList vars r with
      | .error e => .error e
      | .ok r' => .ok (a' :: r')

def varsResolveKw (vars : List (Nat × Arg)) : Kw → Except Err Kw
  | [] => .ok []
  | (k, v) :: r =>
    match varsResolve vars v with
    | .error e => .error e
    | .ok v' =>
      match varsResolveKw vars r with
      | .error e => .error e
      | .ok r' => .ok ((k, v') :: r')

/-- The walk inside `expand_module_call` over the freshly traced sub-graph:
placeholders bind in order to the supplied positional arguments (an
IndexError when they run out), the output node terminates the walk
returning the substituted value of its single wrapped argument,
`get_attr` nodes are re-created in the parent graph with the prefixed
attribute path, and every other node is copied with its arguments
resolved through `vars`.  Falling off the end hits `assert False`. -/
def expandWalk (pfx : String) (args : List Arg) :
    List Node → List (Nat × Arg) → Nat → List Node → Nat →
    Except Err (List Node × Arg × Nat)
  | [], _, _, _, _ => .error .assertionError
  | n :: rest, vars, ai, acc, fresh =>
    match n.op with
    | .placeholder =>
      match args.get? ai with
      | some a => expandWalk pfx args rest (envSet vars n.id a) (ai + 1) acc fresh
      | none => .error .indexError
    | .output =>
      match n.args with
      | [.node j] =>
        match envLookup vars j with
        | some v => .ok (acc, v, fresh)
        | none => .error .keyError
      | [.lit _] => .error .keyError
      | _ => .error .assertionError
    | .get_attr =>
      match n.target with
      | .str t =>
        expandWalk pfx args rest (envSet vars n.id (.node fresh)) ai
          (acc ++ [⟨fresh, .get_attr, .str (pfx ++ t), [], [], {}⟩]) (fresh + 1)
      | .fn _ => .error .typeError
    | _ =>
      match varsResolveList vars n.args with
      | .error e => .error e
      | .ok args' =>
        match varsResolveKw vars n.kwargs with
        | .error e => .error e
        | .ok kw' =>
          expandWalk pfx args rest (envSet vars n.id (.node fresh)) ai
            (acc ++ [⟨fresh, n.op, n.target, args', kw', n.meta⟩]) (fresh + 1)

/-- `expand_module_call(prefix, graph, module, args, kwargs)`.  The
always-succeed stub is installed in the module `__dict__` before the
`try` block; the `assert not kwargs` check and the traced-graph walk run
inside it; the `finally` clause deletes the stub on every exit path.
Returns the body's outcome (the spliced nodes, the returned value and the
advanced fresh counter) paired with the final module `__dict__`.  The
stub's effect on tracing itself is external (the traced sub-graph is
given as data). -/
def expandModuleCall (pfx : String) (mdict : List (String × DVal))
    (traced : List Node) (args : List Arg) (kwargs : Kw) (fresh : Nat) :
    Except Err (List Node × Arg × Nat) × List (String × DVal) :=
  let d1 := dictSet mdict checkInputDimKey .alwaysTrueStub
  let r :=
    if kwargs = [] then expandWalk pfx args traced [] 0 [] fresh
    else .error .assertionError
  (r, dictErase d1 checkInputDimKey)

/-- Substitution accumulated by `replace_all_uses_with`: uses of an erased
node are redirected to its replacement when the using node is reached. -/
def substArg (s : List (Nat × Arg)) : Arg → Arg
  | .node j =>
    match envLookup s j with
    | some v => v
    | none => .node j
  | .lit l => .lit l

def applySubst (s : List (Nat × Arg)) (n : Node) : Node :=
  { n with args := n.args.map (substArg s),
           kwargs := n.kwargs.map (fun p => (p.1, substArg s p.2)) }

/-- The body of `normalize`: iterate over a snapshot of the node list (new
nodes spliced in by inlining are not revisited).  `call_method` nodes
whose method name is in `NORMALIZE_METHODS` are swapped for the
corresponding `call_function`; `call_module` nodes whose sub-module class
is not opaque are expanded in place and all uses redirected to the
returned value. -/
def normLoop :
    List Node → List (String × SubMod) → List (Nat × Arg) → List Node → Nat →
    Except Err (List Node × List (String × SubMod) × Nat)
  | [], mods, _, acc, fresh => .ok (acc, mods, fresh)
  | n0 :: rest, mods, s, acc, fresh =>
    match (applySubst s n0).op with
    | .call_method =>
      match (applySubst s n0).target with
      | .str m =>
        match NORMALIZE_METHODS m with
        | some f =>
          normLoop rest mods s
            (acc ++ [{ applySubst s n0 with op := .call_function, target := .fn f }]) fresh
        | none => normLoop rest mods s (acc ++ [applySubst s n0]) fresh
      | .fn _ => normLoop rest mods s (acc ++ [applySubst s n0]) fresh
    | .call_module =>
      match (applySubst s n0).target with
      | .str p =>
        match modLookup mods p with
        | none => .error .attributeError
        | some md =>
          if DONT_EXPAND_MODULES.contains md.className then
            normLoop rest mods s (acc ++ [applySubst s n0]) fresh
          else
            match expandModuleCall (p ++ ".") md.mdict md.traced
                (applySubst s n0).args (applySubst s n0).kwargs fresh with
            | (.error e, _) => .error e
            | (.ok (ns, ret, fresh'), d') =>
              normLoop rest (modSet mods p { md with mdict := d' })
                (envSet s (applySubst s n0).id ret) (acc ++ ns) fresh'
      | .fn _ => .error .attributeError
    | _ => normLoop rest mods s (acc ++ [applySubst s n0]) fresh

/-- `normalize(gm)`: canonicalize method calls and inline non-opaque
sub-module call sites, in place. -/
def normalizeGm (gm : GM) : Except Err GM :=
  (normLoop gm.graph gm.modules [] [] gm.fresh).map
    fun r => { graph := r.1, modules := r.2.1, fresh := r.2.2 }

/- Functionalization. -/

/-- Diagnostics accumulated by `Functionalization`: each list records the
keys of the counter increments of one counter family (`mutation`,
`getattr`, `nontensor`), one entry per increment. -/
structure FDiag where
  mutation : List String := []
  getattrKeys : List Arg := []
  nontensor : List String := []
  deriving DecidableEq, Repr

/-- Interpreter state of `Functionalization`: the environment mapping
original node ids to their value in the new graph, the new graph built so
far, the fresh-id counter and the diagnostics. -/
structure FState where
  env : List (Nat × Arg) := []
  out : List Node := []
  fresh : Nat := 0
  diag : FDiag := {}
  deriving DecidableEq, Repr

/-- Argument fetch through the environment
(`fetch_args_kwargs_from_env`): node references are replaced by their
current binding (a KeyError when absent), literals pass through. -/
def envResolve (env : List (Nat × Arg)) : Arg → Except Err Arg
  | .node j =>
    match envLookup env j with
    | some v => .ok v
    | none => .error .keyError
  | .lit l => .ok (.lit l)

def resolveArgs (env : List (Nat × Arg)) : List Arg → Except Err (List Arg)
  | [] => .ok []
  | a :: r =>
    match envResolve env a with
    | .error e => .error e
    | .ok a' =>
      match resolveArgs env r with
      | .error e => .error e
      | .ok r' => .ok (a' :: r')

def resolveKwargs (env : List (Nat × Arg)) : Kw → Except Err Kw
  | [] => .ok []
  | (k, v) :: r =>
    match envResolve env v with
    | .error e => .error e
    | .ok v' =>
      match resolveKwargs env r with
      | .error e => .error e
      | .ok r' => .ok ((k, v') :: r')

/-- Python truthiness of a fetched keyword value (`if kwargs["inplace"]`).
A Proxy (node reference) in boolean position cannot be evaluated during
transformation. -/
def truthy : Arg → Except Err Bool
  | .lit (.bool b) => .ok b
  | .lit (.int i) => .ok (i ≠ 0)
  | .lit (.str s) => .ok (s ≠ "")
  | .node _ => .error .typeError

def headArg : List Arg → Except Err Arg
  | [] => .error .indexError
  | a :: _ => .ok a

/-- The test `name.startswith("i")`, computed on the character list. -/
def strHeadIsI (s : String) : Bool :=
  match s.data with
  | c :: _ => c = 'i'
  | [] => false

/-- The slice `name[1:]`, computed on the character list. -/
def strDropHead (s : String) : String := ⟨s.data.drop 1⟩

/-- The `module_name == "_operator" and n.target.__name__.startswith("i")`
test of `Functionalization.run_node`. -/
def isOperatorI : Target → Bool
  | .fn f => fnModule f == "_operator" && strHeadIsI (fnName f)
  | .str _ => false

/-- The `module_name == "_operator" and n.target not in (getitem, setitem,
truediv)` test of `Functionalization.run_node`. -/
def isOperatorOther : Target → Bool
  | .fn f =>
    fnModule f == "_operator" &&
      !([FnId.op_getitem, FnId.op_setitem, FnId.op_truediv].contains f)
  | .str _ => false

/-- The operator-name remapping applied before `getattr(torch, name)`. -/
def mapOpName (s : String) : String :=
  if s = "truediv" then "div"
  else if s = "and_" then "bitwise_and"
  else if s = "or_" then "bitwise_or"
  else s

/-- The mutation-shape detection of `Functionalization.run_node`, entered
only for nodes whose metadata marks a tensor result and no input
mutation.  Returns the (possibly purified) target, the re-emission
kwargs, the patch targets (original-graph argument positions whose
environment binding must be redirected to the new result) and the
`counters["mutation"]` increments. -/
def purifyShapes (mods : List (String × SubMod)) (n : Node) (rk0 : Kw) :
    Except Err (Target × Kw × List Arg × List String) :=
  if kwHas n.kwargs "inplace" then
    match kwFind rk0 "inplace" with
    | none => .error .keyError
    | some v =>
      match truthy v with
      | .error e => .error e
      | .ok t =>
        if t then
          match headArg n.args with
          | .error e => .error e
          | .ok p => .ok (n.target, kwErase rk0 "inplace", [p], [])
        else .ok (n.target, kwErase rk0 "inplace", [], [])
  else if kwHas n.kwargs "out" then
    match kwFind n.kwargs "out" with
    | none => .error .keyError
    | some p => .ok (n.target, kwErase rk0 "out", [p], [])
  else if n.target = .fn .torch_relu_ then
    match headArg n.args with
    | .error e => .error e
    | .ok p => .ok (.fn .torch_relu, rk0, [p], [])
  else if isOperatorI n.target then
    match n.target with
    | .fn f =>
      match getattrTorch (strDropHead (fnName f)) with
      | some f' =>
        match headArg n.args with
        | .error e => .error e
        | .ok p => .ok (.fn f', rk0, [p], [])
      | none => .error .attributeError
    | .str _ => .error .attributeError
  else if isOperatorOther n.target then
    match n.target with
    | .fn f =>
      match getattrTorch (mapOpName (fnName f)) with
      | some f' => .ok (.fn f', rk0, [], [])
      | none => .error .attributeError
    | .str _ => .error .attributeError
  else if n.meta.is_mutation then
    match longName mods n with
    | .error e => .error e
    | .ok nm => .ok (n.target, rk0, [], [nm])
  else .ok (n.target, rk0, [], [])

/-- Patch application after emitting the new node: each patch target must
be a node (`assert isinstance(patch, torch.fx.Node)`), and its
environment binding is overwritten with the new result when present. -/
def applyPatches (env : List (Nat × Arg)) (res : Arg) :
    List Arg → Except Err (List (Nat × Arg))
  | [] => .ok env
  | p :: rest =>
    match p with
    | .node j =>
      applyPatches
        (if (envLookup env j).isSome then envSet env j res else env) res rest
    | .lit _ => .error .assertionError

/-- Node lookup in the original graph (reading `n.args[0].meta`). -/
def gmFindNode : List Node → Nat → Option Node
  | [], _ => none
  | n :: r, j => if n.id = j then some n else gmFindNode r j

/-- Emission of the re-written node (`getattr(self, n.op)(target, args,
kwargs)` building a node in the new graph) followed by patch application
and the binding of the original node to the result. -/
def emitAndPatch (st : FState) (n : Node) (tgt : Target) (ra : List Arg)
    (rk : Kw) (patches : List Arg) (mutT : List String) (getaT : List Arg)
    (nonT : List String) : Except Err FState :=
  match applyPatches st.env (Arg.node st.fresh) patches with
  | .error e => .error e
  | .ok env1 =>
  .ok { env := envSet env1 n.id (Arg.node st.fresh),
        out := st.out ++ [⟨st.fresh, n.op, tgt, ra, rk, n.meta⟩],
        fresh := st.fresh + 1,
        diag := { mutation := st.diag.mutation ++ mutT,
                  getattrKeys := st.diag.getattrKeys ++ getaT,
                  nontensor := st.diag.nontensor ++ nonT } }

/-- `Functionalization.run_node`: fetch arguments through the environment,
purify one mutation shape for tensor-producing non-input-mutation nodes,
constant-fold `getattr(x, "dtype"/"device")` to the stored metadata value
(an early return that emits no node), tally non-tensor results, then
re-emit the node and apply the recorded patches. -/
def runNode (gm : GM) (st : FState) (n : Node) : Except Err FState :=
  match resolveArgs st.env n.args with
  | .error e => .error e
  | .ok ra =>
  match resolveKwargs st.env n.kwargs with
  | .error e => .error e
  | .ok rk0 =>
  match (if n.meta.is_input_mutation = false ∧ n.meta.typeIsTensor = true then
           purifyShapes gm.modules n rk0
         else
           .ok (n.target, rk0, [], [])) with
  | .error e => .error e
  | .ok (tgt, rk, patches, mutT) =>
  if tgt = .fn .builtins_getattr then
    match ra.get? 1 with
    | none => .error .indexError
    | some a1 =>
      match a1 with
      | .node _ => .error .typeError
      | .lit l =>
        if l = .str "dtype" ∨ l = .str "device" then
          match n.args with
          | [] => .error .indexError
          | a0 :: _ =>
            match a0 with
            | .node j =>
              match gmFindNode gm.graph j with
              | some m =>
                match (if l = .str "dtype" then m.meta.dtype else m.meta.device) with
                | some dv => .ok { st with env := envSet st.env n.id (.lit dv) }
                | none => .error .keyError
              | none => .error .keyError
            | .lit _ => .error .attributeError
        else
          emitAndPatch st n tgt ra rk patches mutT [a1] []
  else if n.meta.typeIsTensor = false then
    match longName gm.modules n with
    | .error e => .error e
    | .ok nm => emitAndPatch st n tgt ra rk patches mutT [] [nm]
  else
    emitAndPatch st n tgt ra rk patches mutT [] []

/-- The interpreter loop of `Functionalization`: one `run_node` per node
of the source graph, in order. -/
def funcLoop (gm : GM) : List Node → FState → Except Err FState
  | [], st => .ok st
  | n :: rest, st =>
    match runNode gm st n with
    | .error e => .error e
    | .ok st' => funcLoop gm rest st'

/-- `Functionalization(gm).transform()`: rebuild the graph node by node,
removing most mutation; returns the new node list and the diagnostics. -/
def functionalize (gm : GM) : Except Err (List Node × FDiag) :=
  (funcLoop gm gm.graph { fresh := gm.fresh }).map fun st => (st.out, st.diag)

/- Spec-side predicates for the purity property (C4): the three mutation
marker shapes a node can carry. -/

/-- A destructive target: a compound in-place operator (an `_operator`
callable whose name starts with `i`) or the in-place variant
`torch.relu_` of a pure function. -/
def destructiveTarget (t : Target) : Bool :=
  t = Target.fn .torch_relu_ || isOperatorI t

/-- An `inplace=True` keyword (a present `inplace` keyword whose value is
not literally false). -/
def markerInplace (kw : Kw) : Bool :=
  match kwFind kw "inplace" with
  | some (.lit (.bool false)) => false
  | some _ => true
  | none => false

/-- A node carries a mutation marker when it has an `inplace=True`
keyword, an `out` keyword, or a destructive target. -/
def hasMutationMarker (n : Node) : Bool :=
  markerInplace n.kwargs || kwHas n.kwargs "out" || destructiveTarget n.target

/-- A node presents at most one mutation-marker shape: an `inplace`
keyword (of either truth value — its mere presence selects the first
purification branch), an `out` keyword, a destructive target.  The
purifier removes only the first matching shape, so nodes presenting
several shapes at once keep the others. -/
def atMostOneShape (n : Node) : Bool :=
  match kwHas n.kwargs "inplace", kwHas n.kwargs "out",
        destructiveTarget n.target with
  | true, false, false => true
  | false, true, false => true
  | false, false, true => true
  | false, false, false => true
  | _, _, _ => false

/-- The placeholder projection of a node: its target when it is a
`placeholder`, nothing otherwise. -/
def phKey (n : Node) : Option Target :=
  if n.op = Op.placeholder then some n.target else none

/-- Placeholder signature of a graph: the targets of its `placeholder`
nodes, in order. -/
def phSig (g : List Node) : List Target := g.filterMap phKey

/-- A target of string form (the data model gives placeholders string
targets). -/
def targetIsStr : Target → Bool
  | .str _ => true
  | .fn _ => false

/- Concrete scenario graphs for the claims. -/

/-- The graph of claim C1 as stated: `x` a placeholder, `y = relu(x)`,
`output(y)`. -/
def c1ClaimGraph : List Node := [
  ⟨0, .placeholder, .str "x", [], [], {}⟩,
  ⟨1, .call_function, .fn .F_relu, [.node 0], [], {}⟩,
  ⟨2, .output, .str "output", [.node 1], [], {}⟩]

def c1ClaimGm : GM := { graph := c1ClaimGraph }

/-- An amended C1 graph: the relu argument is an intermediate call node
(`x = add(a, a)`), which owns a fresh buffer instead of the permanently
live buffer of a placeholder. -/
def c1MidGraph : List Node := [
  ⟨0, .placeholder, .str "a", [], [], {}⟩,
  ⟨1, .call_function, .fn .torch_add, [.node 0, .node 0], [], {}⟩,
  ⟨2, .call_function, .fn .F_relu, [.node 1], [], {}⟩,
  ⟨3, .output, .str "output", [.node 2], [], {}⟩]

def c1MidGm : GM := { graph := c1MidGraph }

/-- Expected Inplacifier output for `c1MidGraph`. -/
def c1MidExpected : List Node := [
  ⟨0, .placeholder, .str "a", [], [], {}⟩,
  ⟨1, .call_function, .fn .torch_add, [.node 0, .node 0], [], {}⟩,
  ⟨2, .call_function, .fn .F_relu, [.node 1], [("inplace", .lit (.bool true))], {}⟩,
  ⟨3, .output, .str "output", [.node 2], [], {}⟩]

/-- The graph of claim C2 as stated: `y = add(a, b)` with two placeholder
arguments. -/
def c2ClaimGraph : List Node := [
  ⟨0, .placeholder, .str "a", [], [], {}⟩,
  ⟨1, .placeholder, .str "b", [], [], {}⟩,
  ⟨2, .call_function, .fn .torch_add, [.node 0, .node 1], [], {}⟩,
  ⟨3, .output, .str "output", [.node 2], [], {}⟩]

def c2ClaimGm : GM := { graph := c2ClaimGraph }

/-- An amended C2 graph: a single-argument call `y = exp(a)` whose target's
signature exposes an output-buffer parameter, with `a` an intermediate
node with no other readers. -/
def c2OutGraph : List Node := [
  ⟨0, .placeholder, .str "p", [], [], {}⟩,
  ⟨1, .call_function, .fn .torch_add, [.node 0, .node 0], [], {}⟩,
  ⟨2, .call_function, .fn .torch_exp, [.node 1], [], {}⟩,
  ⟨3, .output, .str "output", [.node 2], [], {}⟩]

def c2OutGm : GM := { graph := c2OutGraph }

/-- Expected Inplacifier output for `c2OutGraph`. -/
def c2OutExpected : List Node := [
  ⟨0, .placeholder, .str "p", [], [], {}⟩,
  ⟨1, .call_function, .fn .torch_add, [.node 0, .node 0], [], {}⟩,
  ⟨2, .call_function, .fn .torch_exp, [.node 1], [("out", .node 1)], {}⟩,
  ⟨3, .output, .str "output", [.node 2], [], {}⟩]

/-- The graph of claim C3: `relu_(x); z = exp(x); output(z)`. -/
def c3Graph : List Node := [
  ⟨0, .placeholder, .str "x", [], [], {}⟩,
  ⟨1, .call_function, .fn .torch_relu_, [.node 0], [], { is_mutation := true }⟩,
  ⟨2, .call_function, .fn .torch_exp, [.node 0], [], {}⟩,
  ⟨3, .output, .str "output", [.node 2], [], {}⟩]

def c3Gm : GM := { graph := c3Graph, fresh := 10 }

/-- Expected Functionalization output for `c3Graph`: the purified relu is
node 11, and the exp call reads node 11 — not node 10, the binding of the
original placeholder. -/
def c3Expected : List Node := [
  ⟨10, .placeholder, .str "x", [], [], {}⟩,
  ⟨11, .call_function, .fn .torch_relu, [.node 10], [], { is_mutation := true }⟩,
  ⟨12, .call_function, .fn .torch_exp, [.node 11], [], {}⟩,
  ⟨13, .output, .str "output", [.node 12], [], {}⟩]

/-- Counterexample graph for C4: an in-place relu flagged as an input
mutation. -/
def c4Graph : List Node := [
  ⟨0, .placeholder, .str "x", [], [], {}⟩,
  ⟨1, .call_function, .fn .torch_relu_, [.node 0], [],
     { is_mutation := true, is_input_mutation := true }⟩,
  ⟨2, .output, .str "output", [.node 1], [], {}⟩]

def c4Gm : GM := { graph := c4Graph, fresh := 10 }

/-- Functionalization output for `c4Graph`: the destructive `relu_` target
survives on a tensor-producing node, with no mutation tally. -/
def c4Expected : List Node := [
  ⟨10, .placeholder, .str "x", [], [], {}⟩,
  ⟨11, .call_function, .fn .torch_relu_, [.node 10], [],
     { is_mutation := true, is_input_mutation := true }⟩,
  ⟨12, .output, .str "output", [.node 11], [], {}⟩]

/-- Counterexample sub-module for C5: its traced body contains a
`call_method` node whose method is in `NORMALIZE_METHODS`. -/
def c5Sub : SubMod := { className := "Sub", traced := [
  ⟨100, .placeholder, .str "p", [], [], {}⟩,
  ⟨101, .call_method, .str "sum", [.node 100], [], {}⟩,
  ⟨102, .output, .str "output", [.node 101], [], {}⟩] }

def c5Graph : List Node := [
  ⟨0, .placeholder, .str "a", [], [], {}⟩,
  ⟨1, .call_module, .str "m", [.node 0], [], {}⟩,
  ⟨2, .output, .str "output", [.node 1], [], {}⟩]

def c5Gm : GM := { graph := c5Graph, modules := [("m", c5Sub)], fresh := 10 }

/-- Graph left by the first `normalize` run on `c5Gm`: the inlined body
still contains the un-normalized `call_method "sum"` node, because the
snapshot loop does not revisit spliced-in nodes. -/
def c5Graph1 : List Node := [
  ⟨0, .placeholder, .str "a", [], [], {}⟩,
  ⟨10, .call_method, .str "sum", [.node 0], [], {}⟩,
  ⟨2, .output, .str "output", [.node 10], [], {}⟩]

def c5Gm1 : GM := { graph := c5Graph1, modules := [("m", c5Sub)], fresh := 11 }

/-- Graph after the second `normalize` run: the leftover method call is now
swapped to a `call_function`, so the two runs differ. -/
def c5Graph2 : List Node := [
  ⟨0, .placeholder, .str "a", [], [], {}⟩,
  ⟨10, .call_function, .fn .torch_sum, [.node 0], [], {}⟩,
  ⟨2, .output, .str "output", [.node 10], [], {}⟩]

def c5Gm2 : GM := { graph := c5Graph2, modules := [("m", c5Sub)], fresh := 11 }

/-- Failing input for C7: the sole effective argument is supplied as a
keyword argument. -/
def c7Graph : List Node := [
  ⟨0, .placeholder, .str "a", [], [], {}⟩,
  ⟨1, .call_function, .fn .F_relu, [], [("input", .node 0)], {}⟩,
  ⟨2, .output, .str "output", [.node 1], [], {}⟩]

def c7Gm : GM := { graph := c7Graph }

/-- The graph of claim C10: method calls `add_` and `mul_`. -/
def c10Graph : List Node := [
  ⟨0, .placeholder, .str "a", [], [], {}⟩,
  ⟨1, .placeholder, .str "b", [], [], {}⟩,
  ⟨2, .call_method, .str "add_", [.node 0, .node 1], [], { is_mutation := true }⟩,
  ⟨3, .call_method, .str "mul_", [.node 2, .node 1], [], { is_mutation := true }⟩,
  ⟨4, .output, .str "output", [.node 3], [], {}⟩]

def c10Gm : GM := { graph := c10Graph, fresh := 20 }

/-- Expected `normalize` output graph for `c10Graph`: the mutating method
calls become `call_function` nodes targeting `operator.iadd` /
`operator.imul` with the same arguments. -/
def c10NormGraph : List Node := [
  ⟨0, .placeholder, .str "a", [], [], {}⟩,
  ⟨1, .placeholder, .str "b", [], [], {}⟩,
  ⟨2, .call_function, .fn .op_iadd, [.node 0, .node 1], [], { is_mutation := true }⟩,
  ⟨3, .call_function, .fn .op_imul, [.node 2, .node 1], [], { is_mutation := true }⟩,
  ⟨4, .output, .str "output", [.node 3], [], {}⟩]

def c10Norm : GM := { graph := c10NormGraph, modules := [], fresh := 20 }

/-- Expected Functionalization output for `c10Norm`: the i-prefixed
operator targets are purified to `torch.add` / `torch.mul` and the
mutated first arguments are threaded through the environment. -/
def c10Func : List Node := [
  ⟨20, .placeholder, .str "a", [], [], {}⟩,
  ⟨21, .placeholder, .str "b", [], [], {}⟩,
  ⟨22, .call_function, .fn .torch_add, [.node 20, .node 21], [], { is_mutation := true }⟩,
  ⟨23, .call_function, .fn .torch_mul, [.node 22, .node 21], [], { is_mutation := true }⟩,
  ⟨24, .output, .str "output", [.node 23], [], {}⟩]

/- Claim theorems: concrete scenarios. -/

/-- C1 (counterexample): on the graph of the claim — placeholder `x`,
`y = relu(x)`, `output(y)` — `Inplacifier.inplacify` leaves every node
unchanged and both optimization counters at zero, because the
placeholder's buffer is permanently live (`NodeCounts(float("inf"))`) and
never reaches a zero use count; in particular no node carries an
`inplace` keyword, contradicting the claim. -/
theorem c1_placeholder_arg_not_rewritten :
    inplacify c1ClaimGm = .ok (c1ClaimGraph, 0, 0) ∧
    c1ClaimGraph.all (fun m => (kwFind m.kwargs "inplace").isNone) = true := by
  exact ⟨rfl, rfl⟩

/-- C1 (amended): when the relu argument is an intermediate call node with
no later readers, `Inplacifier.inplacify` rewrites the relu call into a
single `call_function` node carrying `inplace=True` (the plain form
erased) and the in-place counter increases by exactly one. -/
theorem c1_last_use_relu_inplacified :
    inplacify c1MidGm = .ok (c1MidExpected, 1, 0) := rfl

/-- C2 (counterexample): on the graph of the claim — `y = add(a, b)`,
`output(y)` — `Inplacifier.inplacify` changes nothing and the `out`
counter stays zero: a two-argument call never has exactly one effective
argument, so it is not a rewrite candidate; no node acquires an `out`
keyword, contradicting the claim. -/
theorem c2_two_arg_add_not_rewritten :
    inplacify c2ClaimGm = .ok (c2ClaimGraph, 0, 0) ∧
    c2ClaimGraph.all (fun m => (kwFind m.kwargs "out").isNone) = true := by
  exact ⟨rfl, rfl⟩

/-- C2 (amended): for a single-effective-argument call `y = exp(a)` whose
target's signature exposes an output-buffer parameter, with `a` an
intermediate node with no other readers, `Inplacifier.inplacify` rewrites
the call into one node with `out=a` and the out counter increases by
exactly one. -/
theorem c2_single_arg_out_rewrite :
    inplacify c2OutGm = .ok (c2OutExpected, 0, 1) := rfl

/-- C3: functionalizing `relu_(x); z = exp(x); output(z)` yields two pure
call nodes in which the exp node's argument is node 11 — the result of
the purified `torch.relu` call — and not node 10, the node the original
`x` placeholder was bound to: the patch recorded for the relu overwrote
the environment binding of `x` before the exp node was fetched. -/
theorem c3_exp_reads_purified_relu :
    functionalize c3Gm = .ok (c3Expected, {}) ∧
    gmFindNode c3Expected 12 =
      some ⟨12, .call_function, .fn .torch_exp, [.node 11], [], {}⟩ ∧
    (gmFindNode c3Expected 10).isSome := by
  exact ⟨rfl, rfl, rfl⟩

/-- C7: the source computes the sole effective argument with
`next(kwargs.values())`, but a `dict_values` view is not an iterator, so
candidacy evaluation raises a TypeError whenever the sole effective
argument is supplied as a keyword argument — here on
`relu(input=a)`. -/
theorem c7_sole_kwarg_type_error :
    inplacify c7Gm = .error .typeError := rfl

/-- C10: `normalize` rewrites the `add_` and `mul_` method calls into
`call_function` nodes targeting `operator.iadd` and `operator.imul` with
the same arguments (the mutation surviving in function-call form), and
only the subsequent Functionalization purifies these i-prefixed operator
targets into `torch.add` / `torch.mul`, threading the mutated first
argument through the environment. -/
theorem c10_iadd_imul_pipeline :
    NORMALIZE_METHODS "add_" = some .op_iadd ∧
    NORMALIZE_METHODS "mul_" = some .op_imul ∧
    normalizeGm c10Gm = .ok c10Norm ∧
    functionalize c10Norm = .ok (c10Func, {}) := by
  exact ⟨rfl, rfl, rfl, rfl⟩

/-- C4 (counterexample): functionalizing `c4Graph` — an in-place relu
flagged as an input mutation — produces a tensor-producing node (node 11)
that still carries the destructive `torch.relu_` target while the
unresolved-mutation counter receives no tally, contradicting the claim
that mutation markers are absent from all tensor-producing output nodes
except the tallied ones. -/
theorem c4_input_mutation_marker_survives :
    functionalize c4Gm = .ok (c4Expected, {}) ∧
    (⟨11, .call_function, .fn .torch_relu_, [.node 10], [],
      { is_mutation := true, is_input_mutation := true }⟩ : Node) ∈ c4Expected ∧
    hasMutationMarker ⟨11, .call_function, .fn .torch_relu_, [.node 10], [],
      { is_mutation := true, is_input_mutation := true }⟩ = true ∧
    (⟨11, .call_function, .fn .torch_relu_, [.node 10], [],
      { is_mutation := true, is_input_mutation := true }⟩ : Node).meta.typeIsTensor = true ∧
    (({} : FDiag)).mutation = ([] : List String) := by
  exact ⟨rfl, by decide, by decide, rfl, rfl⟩

/-- C5 (counterexample): running `normalize` on `c5Gm` inlines the
sub-module and leaves its `call_method "sum"` node untouched (spliced-in
nodes are not revisited); a second run swaps that node to a
`call_function`, so the second output differs from the first even up to
node identity (the op sequences differ), contradicting idempotence. -/
theorem c5_expansion_breaks_idempotence :
    normalizeGm c5Gm = .ok c5Gm1 ∧
    normalizeGm c5Gm1 = .ok c5Gm2 ∧
    decide (c5Gm1.graph.map Node.op = c5Gm2.graph.map Node.op) = false := by
  exact ⟨rfl, rfl, by decide⟩

/- Dictionary and keyword-list lemmas. -/

theorem dictErase_dictSet_self (d : List (String × DVal)) (k : String) (v : DVal) :
    dictErase (dictSet d k v) k = dictErase d k := by
  induction d with
  | nil => simp [dictSet, dictErase]
  | cons p r ih =>
    obtain ⟨k', w⟩ := p
    by_cases h : k' = k
    · subst h
      simp [dictSet, dictErase, ih]
    · simp [dictSet, dictErase, h, ih]

theorem dictLookup_dictErase_self (d : List (String × DVal)) (k : String) :
    dictLookup (dictErase d k) k = none := by
  induction d with
  | nil => simp [dictErase, dictLookup]
  | cons p r ih =>
    obtain ⟨k', w⟩ := p
    by_cases h : k' = k
    · simp [dictErase, h, ih]
    · simp [dictErase, dictLookup, h, ih]

/-- C8: on every exit path of `expand_module_call` — normal return, the
keyword-arguments assertion, and any exception raised while walking or
splicing the traced sub-graph — the `finally` clause has deleted the
always-succeed stub from the sub-module's `__dict__`: the final dict is
the input dict with the `_check_input_dim` key removed, so the override
is never observable after the call completes. -/
theorem c8_stub_removed_every_path (pfx : String)
    (mdict : List (String × DVal)) (traced : List Node) (args : List Arg)
    (kwargs : Kw) (fresh : Nat) :
    (expandModuleCall pfx mdict traced args kwargs fresh).2 =
      dictErase mdict checkInputDimKey ∧
    dictLookup (expandModuleCall pfx mdict traced args kwargs fresh).2
      checkInputDimKey = none := by
  refine ⟨?_, ?_⟩
  · show dictErase (dictSet mdict checkInputDimKey .alwaysTrueStub)
      checkInputDimKey = dictErase mdict checkInputDimKey
    exact dictErase_dictSet_self mdict checkInputDimKey .alwaysTrueStub
  · show dictLookup (dictErase (dictSet mdict checkInputDimKey .alwaysTrueStub)
      checkInputDimKey) checkInputDimKey = none
    rw [dictErase_dictSet_self]
    exact dictLookup_dictErase_self mdict checkInputDimKey

theorem kwFind_kwErase_self (l : Kw) (s : String) :
    kwFind (kwErase l s) s = none := by
  induction l with
  | nil => simp [kwErase, kwFind]
  | cons p r ih =>
    obtain ⟨k, v⟩ := p
    by_cases h : k = s
    · simp [kwErase, h, ih]
    · simp [kwErase, kwFind, h, ih]

theorem kwFind_kwErase_ne (l : Kw) (s t : String) (h : s ≠ t) :
    kwFind (kwErase l t) s = kwFind l s := by
  induction l with
  | nil => simp [kwErase]
  | cons p r ih =>
    obtain ⟨k, v⟩ := p
    by_cases hk : k = t
    · subst hk
      simp [kwErase, kwFind, Ne.symm h, ih]
    · by_cases hs : k = s
      · subst hs
        simp [kwErase, kwFind, h]
      · simp [kwErase, kwFind, hk, hs, ih]

theorem resolveKwargs_find_none (env : List (Nat × Arg)) (l : Kw) (rk : Kw)
    (h : resolveKwargs env l = .ok rk) (s : String)
    (hn : kwFind l s = none) : kwFind rk s = none := by
  induction l generalizing rk with
  | nil =>
    simp [resolveKwargs] at h
    subst h
    simp [kwFind]
  | cons p r ih =>
    obtain ⟨k, v⟩ := p
    simp only [resolveKwargs] at h
    cases hv : envResolve env v with
    | error e => rw [hv] at h; simp [Except.bind] at h
    | ok v' =>
      rw [hv] at h
      cases hr : resolveKwargs env r with
      | error e => rw [hr] at h; simp [Except.bind] at h
      | ok rest =>
        rw [hr] at h
        simp [Except.bind, Except.pure, pure] at h
        subst h
        simp only [kwFind] at hn ⊢
        by_cases hk : k = s
        · simp [hk] at hn
        · simp [hk] at hn ⊢
          exact ih rest hr hn

theorem resolveKwargs_find_lit (env : List (Nat × Arg)) (l : Kw) (rk : Kw)
    (h : resolveKwargs env l = .ok rk) (s : String) (lv : Lit)
    (hf : kwFind l s = some (.lit lv)) : kwFind rk s = some (.lit lv) := by
  induction l generalizing rk with
  | nil => simp [kwFind] at hf
  | cons p r ih =>
    obtain ⟨k, v⟩ := p
    simp only [resolveKwargs] at h
    cases hv : envResolve env v with
    | error e => rw [hv] at h; simp [Except.bind] at h
    | ok v' =>
      rw [hv] at h
      cases hr : resolveKwargs env r with
      | error e => rw [hr] at h; simp [Except.bind] at h
      | ok rest =>
        rw [hr] at h
        simp [Except.bind, Except.pure, pure] at h
        subst h
        simp only [kwFind] at hf ⊢
        by_cases hk : k = s
        · simp [hk] at hf ⊢
          subst hf
          simp [envResolve] at hv
          exact hv.symm
        · simp [hk] at hf ⊢
          exact ih rest hr hf

/-- C9: for a tensor-producing, non-input-mutation node carrying an
`inplace` keyword whose value is `False`, `Functionalization.run_node`
drops the keyword from the re-emitted call but records no patch target:
the environment gains only the binding of the node itself (every other
binding, in particular that of the first positional argument, is left
unchanged), and the emitted node keeps its op, target, resolved arguments
and metadata. -/
theorem c9_inplace_false_dropped (gm : GM) (st : FState) (n : Node) (f : FnId)
    (ra : List Arg) (rk : Kw)
    (htgt : n.target = .fn f) (hf : f ≠ .builtins_getattr)
    (hten : n.meta.typeIsTensor = true) (him : n.meta.is_input_mutation = false)
    (hinp : kwFind n.kwargs "inplace" = some (.lit (.bool false)))
    (hra : resolveArgs st.env n.args = .ok ra)
    (hrk : resolveKwargs st.env n.kwargs = .ok rk) :
    runNode gm st n = .ok
      { env := envSet st.env n.id (.node st.fresh),
        out := st.out ++ [⟨st.fresh, n.op, n.target, ra, kwErase rk "inplace", n.meta⟩],
        fresh := st.fresh + 1,
        diag := st.diag } := by
  have hrk' : kwFind rk "inplace" = some (.lit (.bool false)) :=
    resolveKwargs_find_lit st.env n.kwargs rk hrk "inplace" (.bool false) hinp
  have hkw : kwHas n.kwargs "inplace" = true := by simp [kwHas, hinp]
  unfold runNode
  rw [hra, hrk]
  simp only [him, hten, and_self, if_true]
  unfold purifyShapes
  rw [if_pos hkw, hrk']
  simp only [truthy, Bool.false_eq_true, if_false]
  rw [htgt]
  have hne : (Target.fn f = Target.fn .builtins_getattr) = False := by
    simp [Target.fn.injEq, hf]
  simp only [hne, if_false, hten, Bool.true_eq_false]
  unfold emitAndPatch
  simp only [applyPatches, List.append_nil]

def c9Node : Node :=
  ⟨7, .call_function, .fn .F_relu, [.node 0], [("inplace", .lit (.bool false))], {}⟩

def c9St : FState := { env := [(0, .node 40)], fresh := 41 }

/-- C9 witness: `c9_inplace_false_dropped` applied to a concrete
`relu(x, inplace=False)` node. -/
theorem c9_inplace_false_dropped_witness :
    runNode { graph := [] } c9St c9Node = .ok
      { env := [(0, .node 40), (7, .node 41)],
        out := [⟨41, .call_function, .fn .F_relu, [.node 40], [], {}⟩],
        fresh := 42,
        diag := {} } :=
  c9_inplace_false_dropped { graph := [] } c9St c9Node .F_relu [.node 40]
    [("inplace", .lit (.bool false))] rfl (by decide) rfl rfl rfl rfl rfl

theorem kwHas_false_find_none (l : Kw) (s : String) (h : kwHas l s = false) :
    kwFind l s = none := by
  unfold kwHas at h
  cases hf : kwFind l s with
  | none => rfl
  | some v => rw [hf] at h; simp at h

set_option maxRecDepth 4000 in
/-- Purified targets of the i-prefixed `_operator` branch are never
destructive. -/
theorem operatorI_target_pure (f f' : FnId)
    (h1 : isOperatorI (.fn f) = true)
    (h2 : getattrTorch (strDropHead (fnName f)) = some f') :
    destructiveTarget (.fn f') = false := by
  revert h1 h2
  revert f f'
  decide

set_option maxRecDepth 4000 in
/-- Purified targets of the residual `_operator` branch are never
destructive. -/
theorem operatorOther_target_pure (f f' : FnId)
    (h1 : isOperatorOther (.fn f) = true)
    (h2 : getattrTorch (mapOpName (fnName f)) = some f') :
    destructiveTarget (.fn f') = false := by
  revert h1 h2
  revert f f'
  decide


/-- Case analysis of a successful `purifyShapes` run: either the `inplace`
keyword was dropped, or the `out` keyword was dropped, or the keywords
were left alone, both marker keywords were absent from the source node,
and the emitted target is not destructive. -/
theorem purifyShapes_cases (mods : List (String × SubMod)) (n : Node)
    (rk0 : Kw) (t : Target) (k : Kw) (ps : List Arg) (mt : List String)
    (hres : purifyShapes mods n rk0 = .ok (t, k, ps, mt)) :
    (k = kwErase rk0 "inplace" ∧ t = n.target ∧
      kwHas n.kwargs "inplace" = true) ∨
    (k = kwErase rk0 "out" ∧ t = n.target ∧
      kwHas n.kwargs "inplace" = false ∧ kwHas n.kwargs "out" = true) ∨
    (k = rk0 ∧ kwHas n.kwargs "inplace" = false ∧
      kwHas n.kwargs "out" = false ∧ destructiveTarget t = false) := by
  unfold purifyShapes at hres
  split at hres
  · rename_i c1
    split at hres
    · cases hres
    · split at hres
      · cases hres
      · split at hres
        · split at hres
          · cases hres
          · simp only [Except.ok.injEq, Prod.mk.injEq] at hres
            exact Or.inl ⟨hres.2.1.symm, hres.1.symm, c1⟩
        · simp only [Except.ok.injEq, Prod.mk.injEq] at hres
          exact Or.inl ⟨hres.2.1.symm, hres.1.symm, c1⟩
  · rename_i c1
    have c1' : kwHas n.kwargs "inplace" = false := by
      revert c1; cases kwHas n.kwargs "inplace" <;> simp
    split at hres
    · rename_i c2
      split at hres
      · rename_i heq
        rw [kwHas, heq] at c2
        simp at c2
      · simp only [Except.ok.injEq, Prod.mk.injEq] at hres
        exact Or.inr (Or.inl ⟨hres.2.1.symm, hres.1.symm, c1', c2⟩)
    · rename_i c2
      have c2' : kwHas n.kwargs "out" = false := by
        revert c2; cases kwHas n.kwargs "out" <;> simp
      split at hres
      · rename_i c3
        split at hres
        · cases hres
        · simp only [Except.ok.injEq, Prod.mk.injEq] at hres
          refine Or.inr (Or.inr ⟨hres.2.1.symm, c1', c2', ?_⟩)
          rw [← hres.1]
          decide
      · rename_i c3
        split at hres
        · rename_i c4
          split at hres
          · rename_i f hT
            split at hres
            · rename_i f' hg
              split at hres
              · cases hres
              · simp only [Except.ok.injEq, Prod.mk.injEq] at hres
                refine Or.inr (Or.inr ⟨hres.2.1.symm, c1', c2', ?_⟩)
                rw [← hres.1]
                exact operatorI_target_pure f f' (hT ▸ c4) hg
            · cases hres
          · rename_i s hT
            rw [hT] at c4
            simp [isOperatorI] at c4
        · rename_i c4
          have c4' : isOperatorI n.target = false := by
            revert c4; cases isOperatorI n.target <;> simp
          split at hres
          · rename_i c5
            split at hres
            · rename_i f hT
              split at hres
              · rename_i f' hg
                simp only [Except.ok.injEq, Prod.mk.injEq] at hres
                refine Or.inr (Or.inr ⟨hres.2.1.symm, c1', c2', ?_⟩)
                rw [← hres.1]
                exact operatorOther_target_pure f f' (hT ▸ c5) hg
              · cases hres
            · rename_i s hT
              rw [hT] at c5
              simp [isOperatorOther] at c5
          · rename_i c5
            have hdt : destructiveTarget n.target = false := by
              unfold destructiveTarget
              simp [c3, c4']
            split at hres
            · split at hres
              · cases hres
              · simp only [Except.ok.injEq, Prod.mk.injEq] at hres
                exact Or.inr (Or.inr ⟨hres.2.1.symm, c1', c2', hres.1 ▸ hdt⟩)
            · simp only [Except.ok.injEq, Prod.mk.injEq] at hres
              exact Or.inr (Or.inr ⟨hres.2.1.symm, c1', c2', hres.1 ▸ hdt⟩)

/-- For a node presenting at most one mutation-marker shape, a successful
`purifyShapes` run leaves no marker on the emitted target and keyword
list. -/
theorem purifyShapes_pure (mods : List (String × SubMod)) (n : Node)
    (rk0 : Kw) (t : Target) (k : Kw) (ps : List Arg) (mt : List String)
    (hres : purifyShapes mods n rk0 = .ok (t, k, ps, mt))
    (hsh : atMostOneShape n = true)
    (hkeys : ∀ s, kwFind n.kwargs s = none → kwFind rk0 s = none) :
    markerInplace k = false ∧ kwHas k "out" = false ∧
    destructiveTarget t = false := by
  rcases purifyShapes_cases mods n rk0 t k ps mt hres with
    ⟨hk, ht, hA⟩ | ⟨hk, ht, hA, hB⟩ | ⟨hk, hA, hB, hdt⟩
  · have hBC : kwHas n.kwargs "out" = false ∧
        destructiveTarget n.target = false := by
      revert hsh
      unfold atMostOneShape
      rw [hA]
      cases kwHas n.kwargs "out" <;> cases destructiveTarget n.target <;> simp
    subst hk
    refine ⟨?_, ?_, ?_⟩
    · simp [markerInplace, kwFind_kwErase_self]
    · have : kwFind rk0 "out" = none :=
        hkeys "out" (kwHas_false_find_none _ _ hBC.1)
      simp [kwHas, kwFind_kwErase_ne rk0 "out" "inplace" (by decide), this]
    · rw [ht]
      exact hBC.2
  · have hC : destructiveTarget n.target = false := by
      revert hsh
      unfold atMostOneShape
      rw [hA, hB]
      cases destructiveTarget n.target <;> simp
    subst hk
    refine ⟨?_, ?_, ?_⟩
    · have : kwFind rk0 "inplace" = none :=
        hkeys "inplace" (kwHas_false_find_none _ _ hA)
      simp [markerInplace, kwFind_kwErase_ne rk0 "inplace" "out" (by decide), this]
    · simp [kwHas, kwFind_kwErase_self]
    · rw [ht]
      exact hC
  · subst hk
    refine ⟨?_, ?_, hdt⟩
    · have hfi : kwFind k "inplace" = none :=
        hkeys "inplace" (kwHas_false_find_none _ _ hA)
      simp [markerInplace, hfi]
    · have hfo : kwFind k "out" = none :=
        hkeys "out" (kwHas_false_find_none _ _ hB)
      simp [kwHas, hfo]

/-- Membership characterization of a single emission: a node of the output
graph after `emitAndPatch` is either an old node or the freshly emitted
one, and for tensor-producing non-input-mutation source nodes presenting
at most one marker shape, the fresh node is marker-free. -/
theorem emit_member_pure (gm : GM) (st : FState) (n : Node) (st' : FState)
    (tgt : Target) (rk : Kw) (ra : List Arg) (patches : List Arg)
    (mutT : List String) (getaT : List Arg) (nonT : List String) (rk0 : Kw)
    (hemit : emitAndPatch st n tgt ra rk patches mutT getaT nonT = .ok st')
    (hrk : resolveKwargs st.env n.kwargs = .ok rk0)
    (hps : (if n.meta.is_input_mutation = false ∧ n.meta.typeIsTensor = true
            then purifyShapes gm.modules n rk0
            else .ok (n.target, rk0, [], [])) = .ok (tgt, rk, patches, mutT))
    (hsh : atMostOneShape n = true) :
    ∀ m ∈ st'.out, m ∈ st.out ∨
      (m.meta = n.meta ∧ (m.meta.typeIsTensor = true →
        m.meta.is_input_mutation = false → hasMutationMarker m = false)) := by
  unfold emitAndPatch at hemit
  split at hemit
  · cases hemit
  · injection hemit with he
    subst he
    intro m hm
    rcases List.mem_append.mp hm with h1 | h2
    · exact Or.inl h1
    · have hm2 : m = ⟨st.fresh, n.op, tgt, ra, rk, n.meta⟩ := by
        simpa using h2
      subst hm2
      right
      refine ⟨rfl, ?_⟩
      intro hT hI
      rw [if_pos ⟨hI, hT⟩] at hps
      have hkeys : ∀ s, kwFind n.kwargs s = none → kwFind rk0 s = none :=
        fun s hn => resolveKwargs_find_none st.env n.kwargs rk0 hrk s hn
      obtain ⟨h1', h2', h3'⟩ :=
        purifyShapes_pure gm.modules n rk0 tgt rk patches mutT hps hsh hkeys
      simp [hasMutationMarker, h1', h2', h3']

theorem runNode_pure_step (gm : GM) (st : FState) (n : Node) (st' : FState)
    (h : runNode gm st n = .ok st') (hsh : atMostOneShape n = true) :
    ∀ m ∈ st'.out, m ∈ st.out ∨
      (m.meta = n.meta ∧ (m.meta.typeIsTensor = true →
        m.meta.is_input_mutation = false → hasMutationMarker m = false)) := by
  unfold runNode at h
  split at h
  · cases h
  · rename_i ra hra
    split at h
    · cases h
    · rename_i rk0 hrk
      split at h
      · cases h
      · rename_i tgt rk patches mutT hps
        split at h
        · split at h
          · cases h
          · split at h
            · cases h
            · split at h
              · split at h
                · cases h
                · split at h
                  · split at h
                    · split at h
                      · injection h with he
                        subst he
                        exact fun m hm => Or.inl hm
                      · cases h
                    · cases h
                  · cases h
              · exact emit_member_pure gm st n st' tgt rk ra patches mutT
                  _ _ rk0 h hrk hps hsh
        · split at h
          · split at h
            · cases h
            · exact emit_member_pure gm st n st' tgt rk ra patches mutT
                _ _ rk0 h hrk hps hsh
          · exact emit_member_pure gm st n st' tgt rk ra patches mutT
              _ _ rk0 h hrk hps hsh

theorem funcLoop_pure (gm : GM) (l : List Node) : ∀ (st st' : FState),
    funcLoop gm l st = .ok st' →
    (∀ n ∈ l, atMostOneShape n = true) →
    (∀ m ∈ st.out, m.meta.typeIsTensor = true →
      m.meta.is_input_mutation = false → hasMutationMarker m = false) →
    (∀ m ∈ st'.out, m.meta.typeIsTensor = true →
      m.meta.is_input_mutation = false → hasMutationMarker m = false) := by
  induction l with
  | nil =>
    intro st st' h hsh hinv
    unfold funcLoop at h
    injection h with he
    subst he
    exact hinv
  | cons n rest ih =>
    intro st st' h hsh hinv
    unfold funcLoop at h
    split at h
    · cases h
    · rename_i st1 hstep
      refine ih st1 st' h (fun x hx => hsh x (List.mem_cons_of_mem n hx)) ?_
      intro m hm
      rcases runNode_pure_step gm st n st1 hstep
          (hsh n (List.mem_cons_self n rest)) m hm with hold | ⟨_, hp⟩
      · exact hinv m hold
      · exact hp

/-- C4 (amended): for every input graph in which each node presents at
most one mutation-marker shape, every node of the Functionalization
output whose metadata marks it as tensor-producing and not an input
mutation carries no mutation marker at all — no `inplace=True` keyword,
no `out` keyword, no destructive target (so in particular the only
tensor-producing output nodes that can retain markers are those flagged
as input mutations, which the pass skips without tallying, and nodes of
multi-marker sources). -/
theorem c4_functionalize_purity (gm : GM) (g' : List Node) (d : FDiag)
    (h : functionalize gm = .ok (g', d))
    (hsh : ∀ n ∈ gm.graph, atMostOneShape n = true) :
    ∀ m ∈ g', m.meta.typeIsTensor = true →
      m.meta.is_input_mutation = false → hasMutationMarker m = false := by
  unfold functionalize at h
  cases hf : funcLoop gm gm.graph { fresh := gm.fresh } with
  | error e => rw [hf] at h; cases h
  | ok st =>
    rw [hf] at h
    injection h with he
    have hout : st.out = g' := congrArg Prod.fst he
    rw [← hout]
    exact funcLoop_pure gm gm.graph { fresh := gm.fresh } st hf hsh
      (fun m hm => absurd hm (List.not_mem_nil m))

/-- C4 witness: the purity theorem applied to the concrete run on `c3Gm`,
showing the purified relu node of the output is marker-free. -/
theorem c4_functionalize_purity_witness :
    hasMutationMarker
      ⟨11, .call_function, .fn .torch_relu, [.node 10], [],
        { is_mutation := true }⟩ = false :=
  c4_functionalize_purity c3Gm c3Expected {} rfl (by decide)
    ⟨11, .call_function, .fn .torch_relu, [.node 10], [],
      { is_mutation := true }⟩ (by decide) rfl rfl

/-- A `call_module` target that `normalize` leaves opaque: it resolves to a
sub-module whose class is in `DONT_EXPAND_MODULES`. -/
def isOpaqueCallModule (mods : List (String × SubMod)) : Target → Bool
  | .str p =>
    match modLookup mods p with
    | some md => DONT_EXPAND_MODULES.contains md.className
    | none => false
  | .fn _ => false

/-- The method name of a `call_method` target. -/
def targetMethodName : Target → Option String
  | .str s => some s
  | .fn _ => none

/-- The per-node action of `normalize` on a graph with no expanded module
call: method calls in the table are swapped, everything else is kept. -/
def normStepPure (n : Node) : Node :=
  if n.op = Op.call_method then
    (((targetMethodName n.target).bind NORMALIZE_METHODS).map
      (fun f => { n with op := Op.call_function, target := Target.fn f })).getD n
  else n

theorem substArg_nil (a : Arg) : substArg [] a = a := by
  cases a <;> simp [substArg, envLookup]

theorem mapSubstArg_nil (l : List Arg) : l.map (substArg []) = l := by
  induction l with
  | nil => rfl
  | cons a r ih => simp [substArg_nil, ih]

theorem mapSubstKw_nil (l : Kw) : l.map (fun p => (p.1, substArg [] p.2)) = l := by
  induction l with
  | nil => rfl
  | cons p r ih =>
    obtain ⟨k, v⟩ := p
    simp [substArg_nil, ih]

theorem applySubst_nil (n : Node) : applySubst [] n = n := by
  unfold applySubst
  cases n with
  | mk id op target args kwargs meta => simp [mapSubstArg_nil, mapSubstKw_nil]

theorem normLoop_opaque (mods : List (String × SubMod)) :
    ∀ (l : List Node) (acc : List Node) (fresh : Nat),
    (∀ n ∈ l, n.op = Op.call_module →
      isOpaqueCallModule mods n.target = true) →
    normLoop l mods [] acc fresh = .ok (acc ++ l.map normStepPure, mods, fresh) := by
  intro l
  induction l with
  | nil => intro acc fresh _; simp [normLoop]
  | cons n rest ih =>
    intro acc fresh hyp
    have hyp' : ∀ x ∈ rest, x.op = Op.call_module →
        isOpaqueCallModule mods x.target = true :=
      fun x hx => hyp x (List.mem_cons_of_mem n hx)
    simp only [normLoop, applySubst_nil]
    cases hop : n.op with
    | call_method =>
      cases htg : n.target with
      | str m =>
        cases hnm : NORMALIZE_METHODS m with
        | some f =>
          have hrec := ih (acc ++ [{ n with op := .call_function, target := .fn f }]) fresh hyp'
          simp [hnm, hrec, normStepPure, hop, htg, targetMethodName]
        | none =>
          have hrec := ih (acc ++ [n]) fresh hyp'
          simp [hnm, hrec, normStepPure, hop, htg, targetMethodName]
      | fn f =>
        have hrec := ih (acc ++ [n]) fresh hyp'
        simp [hrec, normStepPure, hop, htg, targetMethodName]
    | call_module =>
      have hq := hyp n (List.mem_cons_self n rest) hop
      cases htg : n.target with
      | str p =>
        rw [htg] at hq
        cases hml : modLookup mods p with
        | none => simp [isOpaqueCallModule, hml] at hq
        | some md =>
          have hde : DONT_EXPAND_MODULES.contains md.className = true := by
            simpa [isOpaqueCallModule, hml] using hq
          have hrec := ih (acc ++ [n]) fresh hyp'
          simp only [hml]
          rw [if_pos hde, hrec]
          simp [normStepPure, hop]
      | fn f => rw [htg] at hq; simp [isOpaqueCallModule] at hq
    | placeholder =>
      have hrec := ih (acc ++ [n]) fresh hyp'
      simp [hrec, normStepPure, hop]
    | get_attr =>
      have hrec := ih (acc ++ [n]) fresh hyp'
      simp [hrec, normStepPure, hop]
    | call_function =>
      have hrec := ih (acc ++ [n]) fresh hyp'
      simp [hrec, normStepPure, hop]
    | output =>
      have hrec := ih (acc ++ [n]) fresh hyp'
      simp [hrec, normStepPure, hop]

theorem normStepPure_idem (n : Node) :
    normStepPure (normStepPure n) = normStepPure n := by
  by_cases hop : n.op = Op.call_method
  · cases htg : n.target with
    | str m =>
      cases hnm : NORMALIZE_METHODS m with
      | some f => simp [normStepPure, hop, htg, targetMethodName, hnm]
      | none => simp [normStepPure, hop, htg, targetMethodName, hnm]
    | fn f => simp [normStepPure, hop, htg, targetMethodName]
  · simp [normStepPure, hop]

theorem normStepPure_call_module (n : Node)
    (h : (normStepPure n).op = Op.call_module) : normStepPure n = n := by
  by_cases hop : n.op = Op.call_method
  · cases htg : n.target with
    | str m =>
      cases hnm : NORMALIZE_METHODS m with
      | some f => simp [normStepPure, hop, htg, targetMethodName, hnm] at h
      | none => simp [normStepPure, hop, htg, targetMethodName, hnm]
    | fn f => simp [normStepPure, hop, htg, targetMethodName]
  · simp [normStepPure, hop]

/-- C5 (amended): on a graph whose `call_module` nodes all reference
opaque (`DONT_EXPAND_MODULES`) sub-modules, `normalize` is idempotent:
running it on its own output returns that output unchanged. -/
theorem c5_normalize_idempotent_opaque (gm : GM)
    (hop : ∀ n ∈ gm.graph, n.op = Op.call_module →
      isOpaqueCallModule gm.modules n.target = true)
    (gm' : GM) (h1 : normalizeGm gm = .ok gm') :
    normalizeGm gm' = .ok gm' := by
  have hrun := normLoop_opaque gm.modules gm.graph [] gm.fresh hop
  unfold normalizeGm at h1
  rw [hrun] at h1
  simp only [Except.map] at h1
  injection h1 with h1
  have hyp2 : ∀ x ∈ gm.graph.map normStepPure, x.op = Op.call_module →
      isOpaqueCallModule gm.modules x.target = true := by
    intro x hx hxo
    obtain ⟨y, hy, rfl⟩ := List.mem_map.mp hx
    have hfix := normStepPure_call_module y hxo
    rw [hfix] at hxo ⊢
    exact hop y hy hxo
  have hrun2 := normLoop_opaque gm.modules (gm.graph.map normStepPure) []
    gm.fresh hyp2
  unfold normalizeGm
  subst h1
  simp only [List.nil_append] at hrun2 ⊢
  rw [hrun2]
  simp [Except.map, List.map_map, Function.comp, normStepPure_idem]

def c5OpqSub : SubMod := { className := "LSTM", traced := [] }

def c5WGraph : List Node := [
  ⟨0, .placeholder, .str "a", [], [], {}⟩,
  ⟨1, .call_module, .str "l", [.node 0], [], {}⟩,
  ⟨2, .call_method, .str "exp", [.node 1], [], {}⟩,
  ⟨3, .output, .str "output", [.node 2], [], {}⟩]

def c5WGm : GM := { graph := c5WGraph, modules := [("l", c5OpqSub)], fresh := 30 }

def c5WGraph1 : List Node := [
  ⟨0, .placeholder, .str "a", [], [], {}⟩,
  ⟨1, .call_module, .str "l", [.node 0], [], {}⟩,
  ⟨2, .call_function, .fn .torch_exp, [.node 1], [], {}⟩,
  ⟨3, .output, .str "output", [.node 2], [], {}⟩]

def c5WGm1 : GM := { graph := c5WGraph1, modules := [("l", c5OpqSub)], fresh := 30 }

/-- C5 witness: the idempotence theorem applied to a concrete graph with
one opaque module call and one method call. -/
theorem c5_normalize_idempotent_opaque_witness :
    normalizeGm c5WGm1 = .ok c5WGm1 :=
  c5_normalize_idempotent_opaque c5WGm (by decide) c5WGm1 rfl

theorem phSig_append (a b : List Node) : phSig (a ++ b) = phSig a ++ phSig b := by
  simp [phSig, List.filterMap_append]

theorem phSig_cons (n : Node) (l : List Node) :
    phSig (n :: l) = (phKey n).toList ++ phSig l := by
  cases hk : phKey n <;> simp [phSig, List.filterMap_cons, hk]

theorem phKey_applySubst (s : List (Nat × Arg)) (n : Node) :
    phKey (applySubst s n) = phKey n := rfl

theorem phKey_nonplaceholder (n : Node) (h : ¬ n.op = Op.placeholder) :
    phKey n = none := by
  simp [phKey, h]

/-- The traced-sub-graph walk of the Module Inliner never splices a
placeholder into the parent graph: placeholders of the sub-graph bind to
arguments, and every copied node keeps a non-placeholder op. -/
theorem expandWalk_no_ph (pfx : String) (args : List Arg) :
    ∀ (l : List Node) (vars : List (Nat × Arg)) (ai : Nat) (acc : List Node)
      (fresh : Nat) (ns : List Node) (r : Arg) (f' : Nat),
    expandWalk pfx args l vars ai acc fresh = .ok (ns, r, f') →
    phSig ns = phSig acc := by
  intro l
  induction l with
  | nil => intro vars ai acc fresh ns r f' h; cases h
  | cons n rest ih =>
    intro vars ai acc fresh ns r f' h
    unfold expandWalk at h
    split at h
    · split at h
      · exact ih _ _ _ _ _ _ _ h
      · cases h
    · split at h
      · split at h
        · injection h with h'
          simp only [Prod.mk.injEq] at h'
          rw [← h'.1]
        · cases h
      · cases h
      · cases h
    · split at h
      · have hh := ih _ _ _ _ _ _ _ h
        rw [hh, phSig_append]
        simp [phSig, phKey]
      · cases h
    · rename_i hop hout hga
      split at h
      · cases h
      · split at h
        · cases h
        · have hh := ih _ _ _ _ _ _ _ h
          rw [hh, phSig_append]
          simp [phSig, phKey]
          exact hop

theorem normLoop_phSig :
    ∀ (l : List Node) (mods : List (String × SubMod)) (s : List (Nat × Arg))
      (acc : List Node) (fresh : Nat) (out : List Node)
      (m' : List (String × SubMod)) (f' : Nat),
    normLoop l mods s acc fresh = .ok (out, m', f') →
    phSig out = phSig acc ++ phSig l := by
  intro l
  induction l with
  | nil =>
    intro mods s acc fresh out m' f' h
    unfold normLoop at h
    injection h with h'
    simp only [Prod.mk.injEq] at h'
    rw [← h'.1]
    simp [phSig]
  | cons n0 rest ih =>
    intro mods s acc fresh out m' f' h
    unfold normLoop at h
    split at h
    · rename_i hop
      have hk : phKey n0 = none := by
        rw [← phKey_applySubst s n0]
        simp [phKey, hop]
      split at h
      · split at h
        · have hh := ih _ _ _ _ _ _ _ h
          rw [hh]
          simp [phSig_append, phSig_cons, hk, phSig, phKey]
          try simp [List.filterMap_cons, hk]
        · have hh := ih _ _ _ _ _ _ _ h
          rw [hh]
          simp [phSig_append, phSig_cons, hk, phSig, phKey, hop]
          try simp [List.filterMap_cons, hk]
      · have hh := ih _ _ _ _ _ _ _ h
        rw [hh]
        simp [phSig_append, phSig_cons, hk, phSig, phKey, hop]
        try simp [List.filterMap_cons, hk]
    · rename_i hop
      have hk : phKey n0 = none := by
        rw [← phKey_applySubst s n0]
        simp [phKey, hop]
      split at h
      · rename_i p htg
        split at h
        · cases h
        · rename_i md hmod
          split at h
          · have hh := ih _ _ _ _ _ _ _ h
            rw [hh]
            simp [phSig_append, phSig_cons, hk, phSig, phKey, hop]
            try simp [List.filterMap_cons, hk]
          · split at h
            · cases h
            · rename_i ns1 ret fresh1 d1 heq
              have hfst := congrArg Prod.fst heq
              simp only [expandModuleCall] at hfst
              by_cases hkw : (applySubst s n0).kwargs = []
              · rw [if_pos hkw] at hfst
                have hns := expandWalk_no_ph (p ++ ".")
                  (applySubst s n0).args md.traced [] 0 [] fresh ns1 ret fresh1 hfst
                have hh := ih _ _ _ _ _ _ _ h
                rw [hh]
                simp only [phSig] at hns
                simp [phSig_append, phSig_cons, hk, hns, phSig]
                try simp [List.filterMap_cons, hk, hns]
              · rw [if_neg hkw] at hfst
                cases hfst
      · cases h
    · have hh := ih _ _ _ _ _ _ _ h
      rw [hh]
      simp [phSig_append, phSig_cons, phSig, phKey_applySubst]
      rw [List.filterMap_cons, List.filterMap_cons, phKey_applySubst]
      cases phKey n0 <;> simp

theorem phSig_singleton (n : Node) : phSig [n] = (phKey n).toList := by
  cases hk : phKey n <;> simp [phSig, List.filterMap, hk]

theorem inpStep_fields (A : AliasSt) (u : List (Nat × Nat)) (n n' : Node)
    (di dout : Nat) (w : Bool) (h : inpStep A u n = .ok (n', di, dout, w)) :
    n'.op = n.op ∧ n'.target = n.target := by
  unfold inpStep at h
  repeat' split at h
  all_goals try cases h
  all_goals exact ⟨rfl, rfl⟩

theorem inpLoop_phSig (A : AliasSt) :
    ∀ (rl : List Node) (u : List (Nat × Nat)) (acc : List Node)
      (c : Nat × Nat) (out : List Node) (c' : Nat × Nat),
    inpLoop A rl u acc c = .ok (out, c') →
    phSig out = phSig rl.reverse ++ phSig acc := by
  intro rl
  induction rl with
  | nil =>
    intro u acc c out c' h
    unfold inpLoop at h
    injection h with h'
    simp only [Prod.mk.injEq] at h'
    rw [← h'.1]
    simp [phSig]
  | cons n rest ih =>
    intro u acc c out c' h
    revert h
    unfold inpLoop
    cases hstep : inpStep A u n with
    | error e => intro h; cases h
    | ok r =>
      obtain ⟨n', di, dout, w⟩ := r
      show (match (if w = true then bumpUsage A.buf u (nodeRefs n) else Except.ok u) with
            | Except.error e => Except.error e
            | Except.ok u' =>
              inpLoop A rest u' (n' :: acc) (c.1 + di, c.2 + dout)) =
            Except.ok (out, c') →
          phSig out = phSig (n :: rest).reverse ++ phSig acc
      cases hbump : (if w = true then bumpUsage A.buf u (nodeRefs n) else Except.ok u) with
      | error e => intro h; cases h
      | ok u' =>
        intro h
        have hh := ih _ _ _ _ _ h
        obtain ⟨hop2, htg2⟩ := inpStep_fields A u n n' di dout w hstep
        have hkey : phKey n' = phKey n := by simp [phKey, hop2, htg2]
        rw [hh, phSig_cons, hkey, List.reverse_cons, phSig_append,
          phSig_singleton]
        simp [List.append_assoc]

theorem inplacify_phSig (gm : GM) (out : List Node) (c : Nat × Nat)
    (h : inplacify gm = .ok (out, c)) : phSig out = phSig gm.graph := by
  unfold inplacify at h
  split at h
  · cases h
  · have hh := inpLoop_phSig _ gm.graph.reverse [] [] (0, 0) out c h
    simpa [List.reverse_reverse, phSig] using hh

theorem emitAndPatch_out (st : FState) (n : Node) (tgt : Target)
    (ra : List Arg) (rk : Kw) (ps : List Arg) (mutT : List String)
    (g : List Arg) (nt : List String) (st' : FState)
    (h : emitAndPatch st n tgt ra rk ps mutT g nt = .ok st') :
    st'.out = st.out ++ [⟨st.fresh, n.op, tgt, ra, rk, n.meta⟩] := by
  unfold emitAndPatch at h
  split at h
  · cases h
  · injection h with he
    rw [← he]

theorem purifyShapes_target_str (mods : List (String × SubMod)) (n : Node)
    (rk0 : Kw) (tgt : Target) (rk : Kw) (ps : List Arg) (mt : List String)
    (s0 : String) (hstr : n.target = Target.str s0)
    (hres : purifyShapes mods n rk0 = .ok (tgt, rk, ps, mt)) :
    tgt = n.target := by
  unfold purifyShapes at hres
  split at hres
  · split at hres
    · cases hres
    · split at hres
      · cases hres
      · split at hres
        · split at hres
          · cases hres
          · simp only [Except.ok.injEq, Prod.mk.injEq] at hres
            exact hres.1.symm
        · simp only [Except.ok.injEq, Prod.mk.injEq] at hres
          exact hres.1.symm
  · split at hres
    · split at hres
      · cases hres
      · simp only [Except.ok.injEq, Prod.mk.injEq] at hres
        exact hres.1.symm
    · split at hres
      · rename_i c3
        rw [hstr] at c3
        cases c3
      · split at hres
        · rename_i c4
          rw [hstr] at c4
          simp [isOperatorI] at c4
        · split at hres
          · rename_i c5
            rw [hstr] at c5
            simp [isOperatorOther] at c5
          · split at hres
            · split at hres
              · cases hres
              · simp only [Except.ok.injEq, Prod.mk.injEq] at hres
                exact hres.1.symm
            · simp only [Except.ok.injEq, Prod.mk.injEq] at hres
              exact hres.1.symm

theorem runNode_phSig (gm : GM) (st : FState) (n : Node) (st' : FState)
    (h : runNode gm st n = .ok st')
    (hwf : n.op = Op.placeholder → targetIsStr n.target = true) :
    phSig st'.out = phSig st.out ++ (phKey n).toList := by
  unfold runNode at h
  split at h
  · cases h
  · rename_i ra hra
    split at h
    · cases h
    · rename_i rk0 hrk
      split at h
      · cases h
      · rename_i tgt rk patches mutT hps
        have htgt : n.op = Op.placeholder → tgt = n.target := by
          intro hop
          have hs := hwf hop
          cases htg : n.target with
          | fn f => rw [htg] at hs; simp [targetIsStr] at hs
          | str s0 =>
            rw [← htg]
            by_cases hc : n.meta.is_input_mutation = false ∧ n.meta.typeIsTensor = true
            · rw [if_pos hc] at hps
              exact purifyShapes_target_str gm.modules n rk0 tgt rk patches
                mutT s0 htg hps
            · rw [if_neg hc] at hps
              simp only [Except.ok.injEq, Prod.mk.injEq] at hps
              exact hps.1.symm
        have hkeq : phKey ⟨st.fresh, n.op, tgt, ra, rk, n.meta⟩ = phKey n := by
          by_cases hop : n.op = Op.placeholder
          · simp [phKey, hop, htgt hop]
          · simp [phKey, hop]
        split at h
        · rename_i hget
          have hnp : ¬ n.op = Op.placeholder := by
            intro hop
            have hs := hwf hop
            rw [htgt hop] at hget
            rw [hget] at hs
            simp [targetIsStr] at hs
          split at h
          · cases h
          · split at h
            · cases h
            · split at h
              · split at h
                · cases h
                · split at h
                  · split at h
                    · split at h
                      · injection h with he
                        rw [← he]
                        simp [phKey_nonplaceholder n hnp]
                      · cases h
                    · cases h
                  · cases h
              · have hout := emitAndPatch_out _ _ _ _ _ _ _ _ _ _ h
                rw [hout, phSig_append, phSig_singleton, hkeq]
        · split at h
          · split at h
            · cases h
            · have hout := emitAndPatch_out _ _ _ _ _ _ _ _ _ _ h
              rw [hout, phSig_append, phSig_singleton, hkeq]
          · have hout := emitAndPatch_out _ _ _ _ _ _ _ _ _ _ h
            rw [hout, phSig_append, phSig_singleton, hkeq]

theorem funcLoop_phSig (gm : GM) :
    ∀ (l : List Node) (st st' : FState),
    funcLoop gm l st = .ok st' →
    (∀ n ∈ l, n.op = Op.placeholder → targetIsStr n.target = true) →
    phSig st'.out = phSig st.out ++ phSig l := by
  intro l
  induction l with
  | nil =>
    intro st st' h _
    unfold funcLoop at h
    injection h with he
    rw [← he]
    simp [phSig]
  | cons n rest ih =>
    intro st st' h hwf
    unfold funcLoop at h
    split at h
    · cases h
    · rename_i st1 hstep
      have hh := ih st1 st' h (fun x hx => hwf x (List.mem_cons_of_mem n hx))
      rw [hh, runNode_phSig gm st n st1 hstep
        (hwf n (List.mem_cons_self n rest)), phSig_cons]
      simp [List.append_assoc]

theorem functionalize_phSig (gm : GM) (out : List Node) (d : FDiag)
    (h : functionalize gm = .ok (out, d))
    (hwf : ∀ n ∈ gm.graph, n.op = Op.placeholder → targetIsStr n.target = true) :
    phSig out = phSig gm.graph := by
  unfold functionalize at h
  cases hf : funcLoop gm gm.graph { fresh := gm.fresh } with
  | error e => rw [hf] at h; cases h
  | ok st =>
    rw [hf] at h
    injection h with he
    have hout : st.out = out := congrArg Prod.fst he
    rw [← hout]
    have := funcLoop_phSig gm gm.graph { fresh := gm.fresh } st hf hwf
    simpa [phSig] using this

theorem normalize_phSig (gm gm' : GM) (h : normalizeGm gm = .ok gm') :
    phSig gm'.graph = phSig gm.graph := by
  unfold normalizeGm at h
  cases hr : normLoop gm.graph gm.modules [] [] gm.fresh with
  | error e => rw [hr] at h; cases h
  | ok r =>
    obtain ⟨out, m2, f2⟩ := r
    rw [hr] at h
    injection h with he
    rw [← he]
    have hh := normLoop_phSig gm.graph gm.modules [] [] gm.fresh out m2 f2 hr
    simpa [phSig] using hh

/-- C6: no pass adds, removes or reorders placeholders.  For every
successful run of `normalize`, `Inplacifier.inplacify` and
`Functionalization`, the placeholder signature (the ordered list of
placeholder targets) of the output graph equals that of the input graph;
the Functionalization conjunct assumes the data-model invariant that
placeholder targets are strings (argument names). -/
theorem c6_placeholder_preservation (gm1 gm2 gm3 : GM) (r1 : GM)
    (g2 : List Node) (c2 : Nat × Nat) (g3 : List Node) (d3 : FDiag)
    (h1 : normalizeGm gm1 = .ok r1)
    (h2 : inplacify gm2 = .ok (g2, c2))
    (h3 : functionalize gm3 = .ok (g3, d3))
    (hwf : ∀ n ∈ gm3.graph, n.op = Op.placeholder →
      targetIsStr n.target = true) :
    phSig r1.graph = phSig gm1.graph ∧ phSig g2 = phSig gm2.graph ∧
    phSig g3 = phSig gm3.graph :=
  ⟨normalize_phSig gm1 r1 h1, inplacify_phSig gm2 g2 c2 h2,
    functionalize_phSig gm3 g3 d3 h3 hwf⟩

/-- C6 witness: the preservation theorem applied to the concrete runs of
the three passes used elsewhere in this development. -/
theorem c6_placeholder_preservation_witness :
    phSig c10Norm.graph = phSig c10Graph ∧
    phSig c1MidExpected = phSig c1MidGraph ∧
    phSig c3Expected = phSig c3Graph :=
  c6_placeholder_preservation c10Gm c1MidGm c3Gm c10Norm c1MidExpected
    (1, 0) c3Expected {} rfl rfl rfl (by decide)
